import Mathlib

/-!
# Header reading of the LatinIME binary dictionary

A shallow embedding of
`native/jni/src/suggest/core/dictionary/binary_dictionary_header_reading_utils.cpp`
(`BinaryDictionaryHeaderReader`): `getHeaderSize`, `getFlags`, `readHeaderValue` and
`readHeaderValueInt`.

Conventions of the embedding.

* The dictionary buffer is a raw `const uint8_t *`: it is modelled by the function giving
  the byte found at each offset from that pointer.  The code never consults the length of
  the buffer, so the length appears only in statements, never in definitions.
* Every function that reads the buffer returns, next to its result, the list of the
  offsets it read, in order (`reads`).
* `int` values are `Int`; the one place where a wider value is narrowed to `int`
  (`getHeaderSize`) wraps explicitly modulo `2^32`.
* Output arrays (`int *outValue`) and the uninitialised local arrays of
  `readHeaderValueInt` are functions from the index to the element; the contents they
  have before the call are parameters.
* `ByteArrayUtils`, `defines.h` and the class header are not among the sources; what the
  code uses from them is modelled from the specification and marked so.
-/

namespace latinime

/-- Modelled from the spec: the format tag (`BinaryDictionaryFormat::FORMAT_VERSION`, whose
declaration is missing), "`V1` ... or `V2` ... or `Unknown`". -/
inductive FORMAT_VERSION where
  | VERSION_1
  | VERSION_2
  | UNKNOWN_VERSION
  deriving DecidableEq

/-- The part of `BinaryDictionaryInfo` the reader uses: `getDictBuf()` and `getFormat()`. -/
structure BinaryDictionaryInfo where
  dictBuf : Nat → Nat
  format : FORMAT_VERSION

/-- A result together with the buffer offsets read to compute it. -/
structure Traced (α : Type) where
  val : α
  reads : List Nat

/-- A result of a cursor primitive: the value, the cursor left behind, the offsets read. -/
structure Step (α : Type) where
  val : α
  pos : Nat
  reads : List Nat

/-- Modelled from the spec: `S_INT_MAX` of `defines.h`, "the maximum representable
integer" of a signed 32-bit `int`. -/
def S_INT_MAX : Int := 2147483647

/-- Modelled from the spec: `S_INT_MIN` of `defines.h`, the "absent" sentinel, "a reserved
minimum-integer value" of a signed 32-bit `int`. -/
def S_INT_MIN : Int := -2147483648

/-- Conversion of a `uint32_t` to `int` (two's complement, as on every Android ABI). -/
def uint32ToInt (v : Nat) : Int :=
  if v % 4294967296 < 2147483648 then ((v % 4294967296 : Nat) : Int)
  else ((v % 4294967296 : Nat) : Int) - 4294967296

/-- Conversion of an `int` to `char`, as the byte that represents it. -/
def intToChar (v : Int) : Nat := (v % 256).toNat

/-- The C library's `isdigit` on a byte: `'0'` (48) to `'9'` (57). -/
def isdigit (c : Nat) : Bool := decide (48 ≤ c) && decide (c ≤ 57)

/-- The C library's `isspace` on a byte, C locale. -/
def isspace (c : Nat) : Bool := decide (c = 32) || (decide (9 ≤ c) && decide (c ≤ 13))

/-- The digit run of `atoi`: stops at the first element that is not a digit; `none` when the
array ends before such an element is met (the parse leaves the array). -/
def atoiDigits : List Nat → Nat → Option Nat
  | [], _ => none
  | c :: t, acc => if isdigit c then atoiDigits t (acc * 10 + (c - 48)) else some acc

/-- An `int` result when the value is representable, `none` (undefined by C) otherwise. -/
def checkInt (v : Int) : Option Int :=
  if S_INT_MIN ≤ v ∧ v ≤ S_INT_MAX then some v else none

/-- The elements `a[i]`, ..., `a[i + n - 1]` of an array. -/
def arrayElems (a : Nat → Nat) : Nat → Nat → List Nat
  | _, 0 => []
  | i, n + 1 => a i :: arrayElems a (i + 1) n

/-- The C library's `atoi` on the elements of a `char` array: white space, an optional sign,
a run of decimal digits.  `none` stands for undefined behaviour: the parse runs off the
array, or the value does not fit an `int`. -/
def atoi (chars : List Nat) : Option Int :=
  match chars.dropWhile isspace with
  | [] => none
  | c :: t =>
    if c = 45 then (atoiDigits t 0).bind (fun v => checkInt (-(v : Int)))
    else if c = 43 then (atoiDigits t 0).bind (fun v => checkInt (v : Int))
    else (atoiDigits (c :: t) 0).bind (fun v => checkInt (v : Int))

namespace ByteArrayUtils

/-- The byte at `pos`. -/
def readUint8 (buffer : Nat → Nat) (pos : Nat) : Nat := buffer pos % 256

/-- Modelled from the spec: the primitive reader's "fixed-width unsigned-integer reads at an
offset", two bytes.  The spec leaves the byte order to the reader; the most significant byte
is taken first.  No statement below depends on the order. -/
def readUint16 (buffer : Nat → Nat) (pos : Nat) : Traced Nat :=
  ⟨readUint8 buffer pos * 256 + readUint8 buffer (pos + 1), [pos, pos + 1]⟩

/-- Modelled from the spec: the primitive reader's "fixed-width unsigned-integer reads at an
offset", four bytes, most significant byte first. -/
def readUint32 (buffer : Nat → Nat) (pos : Nat) : Traced Nat :=
  ⟨readUint8 buffer pos * 16777216 + readUint8 buffer (pos + 1) * 65536
      + readUint8 buffer (pos + 2) * 256 + readUint8 buffer (pos + 3),
    [pos, pos + 1, pos + 2, pos + 3]⟩

/-- Modelled from the spec: the primitive reader's "cursor-advance-past-string", "bounds-checked
against a supplied maximum length": reads bytes from the cursor on, at most `maxLength` of
them, and leaves the cursor behind the first 0 byte, or behind the last byte read. -/
def advancePositionToBehindString (buffer : Nat → Nat) : Nat → Nat → Step Unit
  | 0, pos => ⟨(), pos, []⟩
  | maxLength + 1, pos =>
    if readUint8 buffer pos = 0 then ⟨(), pos + 1, [pos]⟩
    else
      let r := advancePositionToBehindString buffer maxLength (pos + 1)
      ⟨(), r.pos, pos :: r.reads⟩

/-- Modelled from the spec: the primitive reader's "null-terminated-string decode-and-advance",
"bounds-checked against a supplied maximum length": copies the bytes from the cursor on into
`outBuffer`, from index `length` on, until a 0 byte is read or `maxLength` bytes were read;
the cursor is left behind the last byte read.  Nothing but the characters is written. -/
def readStringAndAdvancePosition (buffer : Nat → Nat) :
    Nat → (Nat → Int) → Nat → Nat → Step (Nat → Int)
  | 0, outBuffer, _, pos => ⟨outBuffer, pos, []⟩
  | maxLength + 1, outBuffer, length, pos =>
    if readUint8 buffer pos = 0 then ⟨outBuffer, pos + 1, [pos]⟩
    else
      let r := readStringAndAdvancePosition buffer maxLength
        (Function.update outBuffer length ((readUint8 buffer pos : Nat) : Int))
        (length + 1) (pos + 1)
      ⟨r.val, r.pos, pos :: r.reads⟩

/-- Modelled from the spec: the primitive reader's "null-terminated-string comparison against
a target key returning an exact/no-match signal plus an updated cursor", "bounds-checked
against a supplied maximum length".  `target` holds the characters of the C string before
its terminator (a 0 element counts as the terminator).  The string in the buffer is the
bytes from the cursor up to the first 0 byte, at most `maxLength` bytes being read; the
result is 0 when it equals the target and 1 otherwise, and the cursor is left behind the
string that was compared. -/
def compareStringInBufferWithCharArray (buffer : Nat → Nat) :
    List Nat → Nat → Nat → Step Int
  | target, 0, pos => ⟨if target.headD 0 % 256 = 0 then 0 else 1, pos, []⟩
  | target, maxLength + 1, pos =>
    if readUint8 buffer pos = 0 then
      ⟨if target.headD 0 % 256 = 0 then 0 else 1, pos + 1, [pos]⟩
    else if readUint8 buffer pos = target.headD 0 % 256 then
      let r := compareStringInBufferWithCharArray buffer target.tail maxLength (pos + 1)
      ⟨r.val, r.pos, pos :: r.reads⟩
    else
      let r := advancePositionToBehindString buffer maxLength (pos + 1)
      ⟨1, r.pos, pos :: r.reads⟩

end ByteArrayUtils

namespace BinaryDictionaryHeaderReader

open ByteArrayUtils

def FORMAT_VERSION_1_HEADER_SIZE : Int := 5

def VERSION_2_MAGIC_NUMBER_SIZE : Nat := 4

def VERSION_2_DICTIONARY_VERSION_SIZE : Nat := 2

def VERSION_2_DICTIONARY_FLAG_SIZE : Nat := 2

def VERSION_2_DICTIONARY_HEADER_SIZE_SIZE : Nat := 4

def NO_FLAGS : Int := 0

/-- Modelled from the spec: `hasHeaderAttributes` of the class header, "`hasOptionTable(formatTag)`
... True only for `V2`". -/
def hasHeaderAttributes (format : FORMAT_VERSION) : Bool :=
  match format with
  | .VERSION_2 => true
  | _ => false

/-- Modelled from the spec: `getHeaderOptionsPosition` of the class header, "`optionsStart` for
`V2` equals that same fixed offset 8 plus the 4 bytes of the size field itself (offset 12)".
The spec gives no table to the other tags; `readHeaderValue` never asks for them. -/
def getHeaderOptionsPosition (format : FORMAT_VERSION) : Nat :=
  match format with
  | .VERSION_2 =>
    VERSION_2_MAGIC_NUMBER_SIZE + VERSION_2_DICTIONARY_VERSION_SIZE
      + VERSION_2_DICTIONARY_FLAG_SIZE + VERSION_2_DICTIONARY_HEADER_SIZE_SIZE
  | _ => 0

/-- The source's `getHeaderSize`; the `uint32_t` read is returned as `int`. -/
def getHeaderSize (binaryDictionaryInfo : BinaryDictionaryInfo) : Traced Int :=
  match binaryDictionaryInfo.format with
  | .VERSION_1 => ⟨FORMAT_VERSION_1_HEADER_SIZE, []⟩
  | .VERSION_2 =>
    let r := readUint32 binaryDictionaryInfo.dictBuf
      (VERSION_2_MAGIC_NUMBER_SIZE + VERSION_2_DICTIONARY_VERSION_SIZE
        + VERSION_2_DICTIONARY_FLAG_SIZE)
    ⟨uint32ToInt r.val, r.reads⟩
  | _ => ⟨S_INT_MAX, []⟩

/-- The source's `getFlags`. -/
def getFlags (binaryDictionaryInfo : BinaryDictionaryInfo) : Traced Int :=
  match binaryDictionaryInfo.format with
  | .VERSION_1 => ⟨NO_FLAGS, []⟩
  | .VERSION_2 =>
    let r := readUint16 binaryDictionaryInfo.dictBuf
      (VERSION_2_MAGIC_NUMBER_SIZE + VERSION_2_DICTIONARY_VERSION_SIZE)
    ⟨(r.val : Int), r.reads⟩
  | _ => ⟨NO_FLAGS, []⟩

/-- What a call of `readHeaderValue` leaves: the returned flag, the caller's `outValue`
array after the call, and the buffer offsets read. -/
structure HeaderValue where
  found : Bool
  outValue : Nat → Int
  reads : List Nat

/-- The `while (pos < headerSize)` loop of `readHeaderValue`.  `fuel` bounds the number of
iterations; `none` is returned only when it is used up with the cursor still below
`headerSize`.  `reads` accumulates the offsets read so far. -/
def readHeaderValueLoop (buffer : Nat → Nat) (key : List Nat) (outValue : Nat → Int)
    (outValueSize : Int) (headerSize : Int) : Nat → Nat → List Nat → Option HeaderValue
  | 0, pos, reads =>
    if (pos : Int) < headerSize then none else some ⟨false, outValue, reads⟩
  | fuel + 1, pos, reads =>
    if (pos : Int) < headerSize then
      let c := compareStringInBufferWithCharArray buffer key (headerSize - pos).toNat pos
      if c.val = 0 then
        let v := readStringAndAdvancePosition buffer outValueSize.toNat outValue 0 c.pos
        some ⟨true, v.val, reads ++ c.reads ++ v.reads⟩
      else
        let a := advancePositionToBehindString buffer (headerSize - c.pos).toNat c.pos
        readHeaderValueLoop buffer key outValue outValueSize headerSize fuel a.pos
          (reads ++ c.reads ++ a.reads)
    else some ⟨false, outValue, reads⟩

/-- The source's `readHeaderValue`.  The loop gets `headerSize - pos` iterations, which is
enough for every input (`readHeaderValue_returns`). -/
def readHeaderValue (binaryDictionaryInfo : BinaryDictionaryInfo) (key : List Nat)
    (outValue : Nat → Int) (outValueSize : Int) : Option HeaderValue :=
  if outValueSize ≤ 0 ∨ hasHeaderAttributes binaryDictionaryInfo.format = false then
    some ⟨false, outValue, []⟩
  else
    let headerSize := getHeaderSize binaryDictionaryInfo
    let pos := getHeaderOptionsPosition binaryDictionaryInfo.format
    readHeaderValueLoop binaryDictionaryInfo.dictBuf key outValue outValueSize headerSize.val
      (headerSize.val - pos).toNat pos headerSize.reads

/-- The `for` loop of `readHeaderValueInt`, `n` iterations from index `i` on: `none` when
the loop returns `S_INT_MIN`, otherwise `charBuffer` as the loop leaves it (after the
`break` or after the last iteration). -/
def digitScan (intBuffer : Nat → Int) : Nat → Nat → (Nat → Nat) → Option (Nat → Nat)
  | 0, _, charBuffer => some charBuffer
  | n + 1, i, charBuffer =>
    let written := Function.update charBuffer i (intToChar (intBuffer i))
    if written i = 48 then some written
    else if isdigit (written i) = false then none
    else digitScan intBuffer n (i + 1) written

/-- The source's `readHeaderValueInt`.  `bufferSize` is `LARGEST_INT_DIGIT_COUNT`, a
parameter here since `defines.h`, which sets it, is missing; `intBuffer` and `charBuffer`
are the contents the two uninitialised local arrays happen to have.  `none` stands for
undefined behaviour inside `atoi`. -/
def readHeaderValueInt (binaryDictionaryInfo : BinaryDictionaryInfo) (key : List Nat)
    (bufferSize : Nat) (intBuffer : Nat → Int) (charBuffer : Nat → Nat) : Option Int :=
  match readHeaderValue binaryDictionaryInfo key intBuffer (bufferSize : Int) with
  | none => none
  | some r =>
    if r.found = false then some S_INT_MIN
    else
      match digitScan r.outValue bufferSize 0 charBuffer with
      | none => some S_INT_MIN
      | some scanned => atoi (arrayElems scanned 0 bufferSize)

end BinaryDictionaryHeaderReader

/-- A buffer given by its bytes; offsets beyond them read as 0. -/
def bufferOf (bytes : List Nat) : Nat → Nat := fun i => bytes.getD i 0

/-- The characters of a C string: bytes other than the terminator. -/
def isString (s : List Nat) : Prop := ∀ c ∈ s, 0 < c ∧ c < 256

instance (s : List Nat) : Decidable (isString s) := by
  unfold isString
  infer_instance

/-- The bytes of an option table: each pair as the key, a 0 byte, the value, a 0 byte,
the pairs back to back. -/
def encodeTable : List (List Nat × List Nat) → List Nat
  | [] => []
  | (k, v) :: t => k ++ 0 :: (v ++ 0 :: encodeTable t)

/-- The twelve fixed bytes of a V2 header: magic number, version, flags, header size. -/
def headerBytes (flags headerSize : Nat) : List Nat :=
  [155, 193, 58, 254, 0, 2, flags / 256 % 256, flags % 256,
    headerSize / 16777216 % 256, headerSize / 65536 % 256, headerSize / 256 % 256,
    headerSize % 256]

/-- The table `("abc","123")`, `("xyz","9")`. -/
def sampleTable : List (List Nat × List Nat) :=
  [([97, 98, 99], [49, 50, 51]), ([120, 121, 122], [57])]

/-- A V2 dictionary whose header is the fixed fields and `sampleTable`, 26 bytes. -/
def sampleBuffer : Nat → Nat := bufferOf (headerBytes 0 26 ++ encodeTable sampleTable)

/-- A V2 buffer whose bytes 4 and 5 (the version field) differ from bytes 6 and 7. -/
def flagsBuffer : Nat → Nat := bufferOf [155, 193, 58, 254, 0, 1, 0, 2, 0, 0, 0, 12]

/-- A V2 buffer whose header-size field holds `0xFFFFFFFF`. -/
def hugeHeaderBuffer : Nat → Nat := bufferOf (headerBytes 0 4294967295)

/-- A V2 buffer of 18 bytes: a header of 16 bytes whose table is the lone string `"abc"`,
followed by the two bytes `'x'`, 0 of the dictionary body. -/
def keyLastBuffer : Nat → Nat := bufferOf (headerBytes 0 16 ++ [97, 98, 99, 0] ++ [120, 0])

/-- A V2 buffer whose table is the pair `("k","42")`. -/
def fortyTwoBuffer : Nat → Nat :=
  bufferOf (headerBytes 0 17 ++ encodeTable [([107], [52, 50])])

/-- A V2 buffer whose table is the pairs `("k","4a")`, `("m","-5")`. -/
def nonDigitBuffer : Nat → Nat :=
  bufferOf (headerBytes 0 22 ++ encodeTable [([107], [52, 97]), ([109], [45, 53])])

/-- A V2 buffer whose table is the pairs `("a","0")`, `("b","0a")`, `("c","10x")`,
`("d","10")`. -/
def zeroDigitBuffer : Nat → Nat :=
  bufferOf (headerBytes 0 32 ++ encodeTable
    [([97], [48]), ([98], [48, 97]), ([99], [49, 48, 120]), ([100], [49, 48])])

/-- A V2 buffer whose table is the pair `("e","11111111111")`, a value of eleven digits. -/
def longDigitsBuffer : Nat → Nat :=
  bufferOf (headerBytes 0 26 ++ encodeTable
    [([101], [49, 49, 49, 49, 49, 49, 49, 49, 49, 49, 49])])

/-- A buffer that agrees with `flagsBuffer` on bytes 6 and 7 and differs from it on
every other byte. -/
def otherFlagsBuffer : Nat → Nat := bufferOf [1, 1, 1, 1, 9, 9, 0, 2, 7, 7, 7, 7, 5]

/-- A buffer that agrees with `sampleBuffer` on bytes 8 to 11 and differs from it on
the flags and on the table. -/
def otherSizeBuffer : Nat → Nat := bufferOf (headerBytes 5 26 ++ [1, 2, 3])

/-- The buffer holds `bytes` from offset `pos` on. -/
def holdsAt (buffer : Nat → Nat) : Nat → List Nat → Bool
  | _, [] => true
  | pos, b :: t => decide (buffer pos = b) && holdsAt buffer (pos + 1) t

open BinaryDictionaryHeaderReader ByteArrayUtils

/-! ## Lemmas on the cursor primitives -/

/-- The skip moves the cursor forward by at most `n` and reads only offsets between the
old cursor and the new one. -/
theorem advance_bounds (buffer : Nat → Nat) (n pos : Nat) :
    pos ≤ (advancePositionToBehindString buffer n pos).pos
    ∧ (advancePositionToBehindString buffer n pos).pos ≤ pos + n
    ∧ ∀ i ∈ (advancePositionToBehindString buffer n pos).reads,
        pos ≤ i ∧ i < (advancePositionToBehindString buffer n pos).pos := by
  induction n generalizing pos with
  | zero => simp [advancePositionToBehindString]
  | succ n ih =>
    unfold advancePositionToBehindString
    split
    · simp
    · obtain ⟨h1, h2, h3⟩ := ih (pos + 1)
      refine ⟨by simp only; omega, by simp only; omega, ?_⟩
      intro i hi
      simp only [List.mem_cons] at hi
      rcases hi with rfl | hi
      · simp only; omega
      · have := h3 i hi
        simp only; omega

/-- The comparison moves the cursor forward, by at least 1 when its bound is positive and
by at most the bound, and reads only offsets between the old cursor and the new one. -/
theorem compare_bounds (buffer : Nat → Nat) (target : List Nat) (n pos : Nat) :
    pos ≤ (compareStringInBufferWithCharArray buffer target n pos).pos
    ∧ (0 < n → pos < (compareStringInBufferWithCharArray buffer target n pos).pos)
    ∧ (compareStringInBufferWithCharArray buffer target n pos).pos ≤ pos + n
    ∧ ∀ i ∈ (compareStringInBufferWithCharArray buffer target n pos).reads,
        pos ≤ i ∧ i < (compareStringInBufferWithCharArray buffer target n pos).pos := by
  induction n generalizing pos target with
  | zero => simp [compareStringInBufferWithCharArray]
  | succ n ih =>
    unfold compareStringInBufferWithCharArray
    split
    · simp
    · split
      · obtain ⟨h1, _, h2, h3⟩ := ih target.tail (pos + 1)
        refine ⟨by simp only; omega, fun _ => by simp only; omega, by simp only; omega, ?_⟩
        intro i hi
        simp only [List.mem_cons] at hi
        rcases hi with rfl | hi
        · simp only; omega
        · have := h3 i hi
          simp only; omega
      · obtain ⟨h1, h2, h3⟩ := advance_bounds buffer n (pos + 1)
        refine ⟨by simp only; omega, fun _ => by simp only; omega, by simp only; omega, ?_⟩
        intro i hi
        simp only [List.mem_cons] at hi
        rcases hi with rfl | hi
        · simp only; omega
        · have := h3 i hi
          simp only; omega

/-- The decode moves the cursor forward by at most its bound and reads only offsets between
the old cursor and the new one. -/
theorem readString_bounds (buffer : Nat → Nat) (n : Nat) (out : Nat → Int) (len pos : Nat) :
    pos ≤ (readStringAndAdvancePosition buffer n out len pos).pos
    ∧ (readStringAndAdvancePosition buffer n out len pos).pos ≤ pos + n
    ∧ ∀ i ∈ (readStringAndAdvancePosition buffer n out len pos).reads,
        pos ≤ i ∧ i < (readStringAndAdvancePosition buffer n out len pos).pos := by
  induction n generalizing pos out len with
  | zero => simp [readStringAndAdvancePosition]
  | succ n ih =>
    unfold readStringAndAdvancePosition
    split
    · simp
    · obtain ⟨h1, h2, h3⟩ := ih (Function.update out len ((readUint8 buffer pos : Nat) : Int))
        (len + 1) (pos + 1)
      refine ⟨by simp only; omega, by simp only; omega, ?_⟩
      intro i hi
      simp only [List.mem_cons] at hi
      rcases hi with rfl | hi
      · simp only; omega
      · have := h3 i hi
        simp only; omega

/-- The loop returns when it is given at least `headerSize - pos` iterations. -/
theorem loop_returns (buffer : Nat → Nat) (key : List Nat) (outValue : Nat → Int)
    (outValueSize headerSize : Int) (fuel pos : Nat) (reads : List Nat)
    (h : headerSize - pos ≤ fuel) :
    ∃ r, readHeaderValueLoop buffer key outValue outValueSize headerSize fuel pos reads
      = some r := by
  induction fuel generalizing pos reads with
  | zero =>
    unfold readHeaderValueLoop
    rw [if_neg (by omega)]
    exact ⟨_, rfl⟩
  | succ fuel ih =>
    unfold readHeaderValueLoop
    split
    · rename_i hlt
      simp only
      split
      · exact ⟨_, rfl⟩
      · apply ih
        have hc := (compare_bounds buffer key (headerSize - pos).toNat pos).2.1 (by omega)
        have ha := (advance_bounds buffer
          (headerSize - (compareStringInBufferWithCharArray buffer key
            (headerSize - pos).toNat pos).pos).toNat
          (compareStringInBufferWithCharArray buffer key (headerSize - pos).toNat pos).pos).1
        omega
    · exact ⟨_, rfl⟩

/-- Holding a concatenation is holding its two parts one behind the other. -/
theorem holdsAt_append (buffer : Nat → Nat) (pos : Nat) (l1 l2 : List Nat) :
    holdsAt buffer pos (l1 ++ l2) = true
      ↔ holdsAt buffer pos l1 = true ∧ holdsAt buffer (pos + l1.length) l2 = true := by
  induction l1 generalizing pos with
  | nil => simp [holdsAt]
  | cons a l ih =>
    simp only [List.cons_append, holdsAt, Bool.and_eq_true, decide_eq_true_eq,
      List.length_cons, List.append_eq, ih (pos + 1)]
    rw [show pos + 1 + l.length = pos + (l.length + 1) by omega]
    tauto

/-- On a terminated string that fits the bound, the skip leaves the cursor behind the
terminator. -/
theorem advance_string (buffer : Nat → Nat) (s rest : List Nat) (n pos : Nat)
    (hs : isString s) (hb : holdsAt buffer pos (s ++ 0 :: rest) = true) (hn : s.length < n) :
    (advancePositionToBehindString buffer n pos).pos = pos + s.length + 1 := by
  induction s generalizing n pos with
  | nil =>
    obtain ⟨m, rfl⟩ : ∃ m, n = m + 1 := ⟨n - 1, by simp at hn; omega⟩
    simp only [List.nil_append, holdsAt, Bool.and_eq_true, decide_eq_true_eq] at hb
    simp [advancePositionToBehindString, readUint8, hb.1]
  | cons a s ih =>
    obtain ⟨m, rfl⟩ : ∃ m, n = m + 1 := ⟨n - 1, by simp at hn; omega⟩
    simp only [List.cons_append, holdsAt, Bool.and_eq_true, decide_eq_true_eq] at hb
    have ha := hs a (List.mem_cons_self a s)
    have hr : readUint8 buffer pos = a := by
      simp only [readUint8, hb.1]; exact Nat.mod_eq_of_lt ha.2
    have := ih m (pos + 1) (fun c hc => hs c (List.mem_cons_of_mem a hc)) hb.2
      (by simp at hn; omega)
    unfold advancePositionToBehindString
    rw [if_neg (by omega)]
    simp only [this, List.length_cons]
    omega

/-- On a terminated string that fits the bound, the comparison reports 0 exactly when the
string equals the key, and leaves the cursor behind the terminator. -/
theorem compare_string (buffer : Nat → Nat) (k rest key : List Nat) (n pos : Nat)
    (hk : isString k) (hkey : isString key)
    (hb : holdsAt buffer pos (k ++ 0 :: rest) = true) (hn : k.length < n) :
    (compareStringInBufferWithCharArray buffer key n pos).val = (if k = key then 0 else 1)
    ∧ (compareStringInBufferWithCharArray buffer key n pos).pos = pos + k.length + 1 := by
  induction k generalizing n pos key with
  | nil =>
    obtain ⟨m, rfl⟩ : ∃ m, n = m + 1 := ⟨n - 1, by simp at hn; omega⟩
    simp only [List.nil_append, holdsAt, Bool.and_eq_true, decide_eq_true_eq] at hb
    unfold compareStringInBufferWithCharArray
    rw [if_pos (by simp [readUint8, hb.1])]
    cases key with
    | nil => simp
    | cons c key =>
      have hc := hkey c (List.mem_cons_self c key)
      have : c % 256 ≠ 0 := by rw [Nat.mod_eq_of_lt hc.2]; omega
      simp [this]
  | cons a k ih =>
    obtain ⟨m, rfl⟩ : ∃ m, n = m + 1 := ⟨n - 1, by simp at hn; omega⟩
    have hb0 := hb
    simp only [List.cons_append, holdsAt, Bool.and_eq_true, decide_eq_true_eq] at hb
    have ha := hk a (List.mem_cons_self a k)
    have hr : readUint8 buffer pos = a := by
      simp only [readUint8, hb.1]; exact Nat.mod_eq_of_lt ha.2
    have hk2 : isString k := fun c hc => hk c (List.mem_cons_of_mem a hc)
    have hm : k.length < m := by simp at hn; omega
    unfold compareStringInBufferWithCharArray
    rw [if_neg (by omega)]
    by_cases hh : readUint8 buffer pos = key.headD 0 % 256
    · rw [if_pos hh]
      cases key with
      | nil => simp at hh; omega
      | cons c key =>
        have hc := hkey c (List.mem_cons_self c key)
        have hca : a = c := by
          rw [hr] at hh; simp only [List.headD_cons] at hh
          rw [Nat.mod_eq_of_lt hc.2] at hh; exact hh
        subst hca
        have := ih key m (pos + 1) hk2 (fun c hc => hkey c (List.mem_cons_of_mem a hc)) hb.2 hm
        simp only [List.tail_cons, this, List.length_cons, List.cons.injEq, true_and]
        omega
    · rw [if_neg hh]
      have hadv := advance_string buffer k rest m (pos + 1) hk2 hb.2 hm
      have hne : ¬ (a :: k = key) := by
        intro h
        subst h
        apply hh
        rw [hr]; simp only [List.headD_cons]
        exact (Nat.mod_eq_of_lt ha.2).symm
      simp only [hadv, hne, if_false, List.length_cons, true_and]
      omega

/-- On a terminated string, the decode writes its first `n` characters from index `len`
on and nothing else. -/
theorem readString_string (buffer : Nat → Nat) (v rest : List Nat) (n : Nat)
    (out : Nat → Int) (len pos : Nat)
    (hv : isString v) (hb : holdsAt buffer pos (v ++ 0 :: rest) = true) :
    (readStringAndAdvancePosition buffer n out len pos).val
      = fun i => if len ≤ i ∧ i < len + min n v.length
          then ((v.getD (i - len) 0 : Nat) : Int) else out i := by
  induction v generalizing n out len pos with
  | nil =>
    simp only [List.nil_append, holdsAt, Bool.and_eq_true, decide_eq_true_eq] at hb
    cases n with
    | zero =>
      funext i
      simp only [readStringAndAdvancePosition]
      rw [if_neg (by omega)]
    | succ m =>
      funext i
      simp only [readStringAndAdvancePosition, readUint8, hb.1]
      simp only [Nat.zero_mod, if_true, List.length_nil]
      rw [if_neg (by omega)]
  | cons a v ih =>
    simp only [List.cons_append, holdsAt, Bool.and_eq_true, decide_eq_true_eq] at hb
    have ha := hv a (List.mem_cons_self a v)
    have hr : readUint8 buffer pos = a := by
      simp only [readUint8, hb.1]; exact Nat.mod_eq_of_lt ha.2
    cases n with
    | zero =>
      funext i
      simp only [readStringAndAdvancePosition]
      rw [if_neg (by omega)]
    | succ m =>
      unfold readStringAndAdvancePosition
      rw [if_neg (by omega)]
      simp only
      rw [ih m _ (len + 1) (pos + 1) (fun c hc => hv c (List.mem_cons_of_mem a hc)) hb.2]
      funext i
      simp only [List.length_cons, hr]
      by_cases h1 : i = len
      · subst h1
        simp
      · rw [Function.update_noteq h1]
        by_cases h2 : len + 1 ≤ i ∧ i < len + 1 + min m v.length
        · rw [if_pos h2, if_pos (by omega)]
          obtain ⟨j, rfl⟩ : ∃ j, i = len + 1 + j := ⟨i - (len + 1), by omega⟩
          rw [show len + 1 + j - (len + 1) = j by omega,
            show len + 1 + j - len = j + 1 by omega]
          simp
        · rw [if_neg h2, if_neg (by omega)]

/-- The loop on a well-formed table: the first pair whose key equals the queried key
decides the result. -/
theorem loop_table (buffer : Nat → Nat) (key : List Nat) (outValue : Nat → Int)
    (outValueSize headerSize : Int) (table : List (List Nat × List Nat))
    (fuel pos : Nat) (reads : List Nat)
    (hkey : isString key) (htable : ∀ p ∈ table, isString p.1 ∧ isString p.2)
    (hb : holdsAt buffer pos (encodeTable table) = true)
    (hsize : headerSize = pos + (encodeTable table).length)
    (hfuel : (encodeTable table).length ≤ fuel) :
    ∃ r, readHeaderValueLoop buffer key outValue outValueSize headerSize fuel pos reads
        = some r
      ∧ match table.find? (fun p => decide (p.1 = key)) with
        | some p => r.found = true
            ∧ r.outValue = fun i => if i < min outValueSize.toNat p.2.length
                then ((p.2.getD i 0 : Nat) : Int) else outValue i
        | none => r.found = false ∧ r.outValue = outValue := by
  induction table generalizing fuel pos reads with
  | nil =>
    simp only [encodeTable, List.length_nil, Nat.cast_zero, add_zero] at hsize
    refine ⟨⟨false, outValue, reads⟩, ?_, by simp⟩
    cases fuel with
    | zero => unfold readHeaderValueLoop; rw [if_neg (by omega)]
    | succ f => unfold readHeaderValueLoop; rw [if_neg (by omega)]
  | cons p t ih =>
    obtain ⟨k, v⟩ := p
    have hkv := htable (k, v) (List.mem_cons_self _ _)
    simp only [encodeTable, List.length_append, List.length_cons] at hsize hfuel
    simp only [encodeTable] at hb
    obtain ⟨f, rfl⟩ : ∃ f, fuel = f + 1 := ⟨fuel - 1, by omega⟩
    have hcmp := compare_string buffer k (v ++ 0 :: encodeTable t) key
      (headerSize - pos).toNat pos hkv.1 hkey hb (by omega)
    have hb2 := ((holdsAt_append buffer pos k _).1 hb).2
    simp only [holdsAt, Bool.and_eq_true, decide_eq_true_eq] at hb2
    have hbv := hb2.2
    unfold readHeaderValueLoop
    rw [if_pos (by omega)]
    simp only [hcmp.2]
    by_cases hk : k = key
    · rw [hcmp.1, if_pos hk, if_pos rfl]
      refine ⟨_, rfl, ?_⟩
      simp only [List.find?_cons, hk, decide_True, true_and]
      rw [readString_string buffer v (encodeTable t) _ _ _ _ hkv.2
        (by rw [← hk]; exact hbv)]
      funext i
      simp
    · rw [hcmp.1, if_neg hk, if_neg (by decide)]
      have hadv := advance_string buffer v (encodeTable t)
        (headerSize - ((pos + k.length + 1 : Nat) : Int)).toNat (pos + k.length + 1)
        hkv.2 hbv (by omega)
      rw [hadv]
      have hbt := ((holdsAt_append buffer (pos + k.length + 1) v _).1 hbv).2
      simp only [holdsAt, Bool.and_eq_true, decide_eq_true_eq] at hbt
      obtain ⟨r, hr, hm⟩ := ih f (pos + k.length + 1 + v.length + 1) _
        (fun p hp => htable p (List.mem_cons_of_mem _ hp)) hbt.2
        (by push_cast at hsize ⊢; omega) (by omega)
      refine ⟨r, hr, ?_⟩
      simp only [List.find?_cons, hk, decide_False]
      exact hm

/-- A run of the loop that ends with `found = false` leaves `outValue` alone and reads
below `headerSize` only. -/
theorem loop_reads_notFound (buffer : Nat → Nat) (key : List Nat) (outValue : Nat → Int)
    (outValueSize headerSize : Int) (fuel pos : Nat) (reads : List Nat) (r : HeaderValue)
    (h : readHeaderValueLoop buffer key outValue outValueSize headerSize fuel pos reads
      = some r)
    (hf : r.found = false) :
    r.outValue = outValue
      ∧ ∀ i ∈ r.reads, i ∈ reads ∨ (pos ≤ i ∧ (i : Int) < headerSize) := by
  induction fuel generalizing pos reads with
  | zero =>
    unfold readHeaderValueLoop at h
    split at h
    · exact absurd h (by simp)
    · simp only [Option.some.injEq] at h
      subst h
      exact ⟨rfl, fun i hi => Or.inl hi⟩
  | succ fuel ih =>
    unfold readHeaderValueLoop at h
    split at h
    · rename_i hlt
      simp only at h
      split at h
      · simp only [Option.some.injEq] at h
        subst h
        exact absurd hf (by simp)
      · obtain ⟨ho, hr⟩ := ih _ _ h
        refine ⟨ho, fun i hi => ?_⟩
        have hc := compare_bounds buffer key (headerSize - pos).toNat pos
        have ha := advance_bounds buffer
          (headerSize - (compareStringInBufferWithCharArray buffer key
            (headerSize - pos).toNat pos).pos).toNat
          (compareStringInBufferWithCharArray buffer key (headerSize - pos).toNat pos).pos
        rcases hr i hi with hm | hm
        · simp only [List.mem_append] at hm
          rcases hm with (hm | hm) | hm
          · exact Or.inl hm
          · have := hc.2.2.2 i hm
            right; omega
          · have := ha.2.2 i hm
            right; omega
        · right; omega
    · simp only [Option.some.injEq] at h
      subst h
      exact ⟨rfl, fun i hi => Or.inl hi⟩

/-- Four bytes make a number below `2^32`. -/
theorem readUint32_lt (buffer : Nat → Nat) (pos : Nat) :
    (readUint32 buffer pos).val < 4294967296 := by
  have h0 : readUint8 buffer pos < 256 := Nat.mod_lt _ (by decide)
  have h1 : readUint8 buffer (pos + 1) < 256 := Nat.mod_lt _ (by decide)
  have h2 : readUint8 buffer (pos + 2) < 256 := Nat.mod_lt _ (by decide)
  have h3 : readUint8 buffer (pos + 3) < 256 := Nat.mod_lt _ (by decide)
  simp only [readUint32]
  omega

/-- The iterations given to the loop by `readHeaderValue` are enough: it returns on every
input. -/
theorem readHeaderValue_returns (info : BinaryDictionaryInfo) (key : List Nat)
    (outValue : Nat → Int) (outValueSize : Int) :
    ∃ r, readHeaderValue info key outValue outValueSize = some r := by
  unfold readHeaderValue
  split
  · exact ⟨_, rfl⟩
  · apply loop_returns
    omega

/-- The result of `readHeaderValue` on a V2 buffer whose header holds a well-formed table. -/
theorem readHeaderValue_table (buffer : Nat → Nat) (table : List (List Nat × List Nat))
    (key : List Nat) (outValue : Nat → Int) (outValueSize : Int)
    (hcap : 0 < outValueSize) (hkey : isString key)
    (htable : ∀ p ∈ table, isString p.1 ∧ isString p.2)
    (hb : holdsAt buffer 12 (encodeTable table) = true)
    (hsize : (getHeaderSize ⟨buffer, .VERSION_2⟩).val = 12 + (encodeTable table).length) :
    ∃ r, readHeaderValue ⟨buffer, .VERSION_2⟩ key outValue outValueSize = some r
      ∧ match table.find? (fun p => decide (p.1 = key)) with
        | some p => r.found = true
            ∧ r.outValue = fun i => if i < min outValueSize.toNat p.2.length
                then ((p.2.getD i 0 : Nat) : Int) else outValue i
        | none => r.found = false ∧ r.outValue = outValue := by
  unfold readHeaderValue
  rw [if_neg (by simp [hasHeaderAttributes]; omega)]
  simp only [hsize]
  apply loop_table buffer key outValue outValueSize _ table _ _ _ hkey htable
  · exact hb
  · simp [getHeaderOptionsPosition, VERSION_2_MAGIC_NUMBER_SIZE,
      VERSION_2_DICTIONARY_VERSION_SIZE, VERSION_2_DICTIONARY_FLAG_SIZE,
      VERSION_2_DICTIONARY_HEADER_SIZE_SIZE]
  · simp [getHeaderOptionsPosition, VERSION_2_MAGIC_NUMBER_SIZE,
      VERSION_2_DICTIONARY_VERSION_SIZE, VERSION_2_DICTIONARY_FLAG_SIZE,
      VERSION_2_DICTIONARY_HEADER_SIZE_SIZE]

/-- The scan returns `S_INT_MIN` when it meets an element that is not a digit before any
`'0'` character. -/
theorem digitScan_rejects (intBuffer : Nat → Int) (n i j : Nat) (charBuffer : Nat → Nat)
    (hij : i ≤ j) (hjn : j < i + n) (hj : isdigit (intToChar (intBuffer j)) = false)
    (hz : ∀ k, i ≤ k → k < j → intToChar (intBuffer k) ≠ 48) :
    digitScan intBuffer n i charBuffer = none := by
  induction n generalizing i charBuffer with
  | zero => omega
  | succ n ih =>
    unfold digitScan
    simp only [Function.update_same]
    by_cases hi : i = j
    · subst hi
      have h48 : intToChar (intBuffer i) ≠ 48 := by
        intro h
        rw [h] at hj
        exact absurd hj (by decide)
      rw [if_neg h48, if_pos hj]
    · rw [if_neg (hz i (le_refl i) (by omega))]
      split
      · rfl
      · exact ih (i + 1) _ (by omega) (by omega) (fun k h1 h2 => hz k (by omega) h2)

/-- The scan leaves the elements of `charBuffer` below its start index as they are. -/
theorem digitScan_keeps (intBuffer : Nat → Int) (n i : Nat) (charBuffer s : Nat → Nat)
    (h : digitScan intBuffer n i charBuffer = some s) :
    ∀ j, j < i → s j = charBuffer j := by
  induction n generalizing i charBuffer with
  | zero =>
    simp only [digitScan, Option.some.injEq] at h
    subst h
    exact fun _ _ => rfl
  | succ n ih =>
    intro j hj
    unfold digitScan at h
    simp only [Function.update_same] at h
    split at h
    · simp only [Option.some.injEq] at h
      subst h
      exact Function.update_noteq (by omega) _ _
    · split at h
      · exact absurd h (by simp)
      · rw [ih (i + 1) _ h j (by omega)]
        exact Function.update_noteq (by omega) _ _

/-- A scan that does not reject has copied a digit at its start index, and when that digit
is not `'0'` it went on from the next index. -/
theorem digitScan_head (intBuffer : Nat → Int) (n i : Nat) (charBuffer s : Nat → Nat)
    (h : digitScan intBuffer (n + 1) i charBuffer = some s) :
    s i = intToChar (intBuffer i) ∧ isdigit (s i) = true
      ∧ (intToChar (intBuffer i) ≠ 48 →
          digitScan intBuffer n (i + 1)
            (Function.update charBuffer i (intToChar (intBuffer i))) = some s) := by
  unfold digitScan at h
  simp only [Function.update_same] at h
  split at h
  · rename_i h48
    simp only [Option.some.injEq] at h
    subst h
    simp only [Function.update_same]
    exact ⟨trivial, by rw [h48]; decide, fun hne => absurd h48 hne⟩
  · split at h
    · exact absurd h (by simp)
    · rename_i hd
      have hk := digitScan_keeps intBuffer n (i + 1) _ s h i (by omega)
      simp only [Function.update_same] at hk
      rw [hk]
      exact ⟨rfl, by simpa using hd, fun _ => h⟩

/-- The digit run only grows the accumulated value. -/
theorem atoiDigits_ge (l : List Nat) (acc v : Nat) (h : atoiDigits l acc = some v) :
    acc ≤ v := by
  induction l generalizing acc with
  | nil => simp [atoiDigits] at h
  | cons c t ih =>
    unfold atoiDigits at h
    split at h
    · have := ih _ h
      omega
    · simp only [Option.some.injEq] at h
      omega

/-- The characters `'4'`, `'2'` followed by a third digit do not parse to 42. -/
theorem atoi_three_digits (d : Nat) (t : List Nat) (hd : isdigit d = true) :
    atoi (52 :: 50 :: d :: t) ≠ some 42 := by
  have h1 : atoi (52 :: 50 :: d :: t)
      = (atoiDigits t (420 + (d - 48))).bind (fun v => checkInt (v : Int)) := by
    have i52 : isdigit 52 = true := by decide
    have i50 : isdigit 50 = true := by decide
    simp [atoi, isspace, atoiDigits, i52, i50, hd]
  rw [h1]
  intro h
  cases hv : atoiDigits t (420 + (d - 48)) with
  | none => rw [hv] at h; simp at h
  | some v =>
    rw [hv] at h
    have hge := atoiDigits_ge _ _ _ hv
    simp only [Option.some_bind, checkInt] at h
    split at h
    · simp only [Option.some.injEq] at h
      omega
    · simp at h

/-- The scan stops at the first `'0'` behind a run of other digits: it does not reject, has
copied the elements up to that `'0'`, and has looked at none behind it. -/
theorem digitScan_stops (intBuffer : Nat → Int) (n i k : Nat) (charBuffer : Nat → Nat)
    (hik : i ≤ k) (hkn : k < i + n)
    (hd : ∀ j, i ≤ j → j < k →
      isdigit (intToChar (intBuffer j)) = true ∧ intToChar (intBuffer j) ≠ 48)
    (hz : intToChar (intBuffer k) = 48) :
    digitScan intBuffer n i charBuffer
      = some (fun x => if i ≤ x ∧ x ≤ k then intToChar (intBuffer x) else charBuffer x) := by
  induction n generalizing i charBuffer with
  | zero => omega
  | succ n ih =>
    unfold digitScan
    simp only [Function.update_same]
    by_cases hi : i = k
    · subst hi
      rw [if_pos hz]
      congr 1
      funext x
      by_cases hx : x = i
      · subst hx
        simp
      · rw [Function.update_noteq hx, if_neg (by omega)]
    · have hdi := hd i (le_refl i) (by omega)
      rw [if_neg hdi.2, if_neg (by simp [hdi.1])]
      rw [ih (i + 1) _ (by omega) (by omega) (fun j h1 h2 => hd j (by omega) h2)]
      congr 1
      funext x
      by_cases hx : x = i
      · subst hx
        rw [if_neg (by omega), if_pos (by omega), Function.update_same]
      · rw [Function.update_noteq hx]
        by_cases hx2 : i + 1 ≤ x ∧ x ≤ k
        · rw [if_pos hx2, if_pos (by omega)]
        · rw [if_neg hx2, if_neg (by omega)]

/-- A string that starts with a digit does not parse to `S_INT_MIN`. -/
theorem atoi_digit_head (c : Nat) (t : List Nat) (hc : isdigit c = true) :
    atoi (c :: t) ≠ some S_INT_MIN := by
  have hc2 : 48 ≤ c ∧ c ≤ 57 := by simpa [isdigit] using hc
  have hsp : isspace c = false := by
    simp only [isspace, Bool.or_eq_false_iff, Bool.and_eq_false_iff, decide_eq_false_iff_not]
    omega
  have h1 : atoi (c :: t) = (atoiDigits (c :: t) 0).bind (fun v => checkInt (v : Int)) := by
    unfold atoi
    rw [List.dropWhile_cons_of_neg (by simp [hsp])]
    simp only
    rw [if_neg (by omega), if_neg (by omega)]
  rw [h1]
  intro h
  cases hv : atoiDigits (c :: t) 0 with
  | none => rw [hv] at h; simp at h
  | some v =>
    rw [hv] at h
    simp only [Option.some_bind, checkInt] at h
    split at h
    · simp only [Option.some.injEq, S_INT_MIN] at h
      omega
    · simp at h

/-- The byte of an `int` between `'1'` and `'9'` is that digit. -/
theorem intToChar_digit (v : Int) (h : 49 ≤ v ∧ v ≤ 57) :
    isdigit (intToChar v) = true ∧ intToChar v ≠ 48 := by
  have h1 : v % 256 = v := Int.emod_eq_of_lt (by omega) (by omega)
  have h2 : 49 ≤ intToChar v ∧ intToChar v ≤ 57 := by
    unfold intToChar
    rw [h1]
    omega
  refine ⟨?_, by omega⟩
  simp only [isdigit, Bool.and_eq_true, decide_eq_true_eq]
  omega

/-- A run of the loop that ends with `found = false` under any tag leaves `outValue` as
it was. -/
theorem readHeaderValue_notFound_keeps (info : BinaryDictionaryInfo) (key : List Nat)
    (outValue : Nat → Int) (outValueSize : Int) (r : HeaderValue)
    (hr : readHeaderValue info key outValue outValueSize = some r) (hf : r.found = false) :
    r.outValue = outValue := by
  unfold readHeaderValue at hr
  split at hr
  · simp only [Option.some.injEq] at hr
    subst hr
    rfl
  · exact (loop_reads_notFound _ _ _ _ _ _ _ _ _ hr hf).1

/-- More iterations than `headerSize - pos` change nothing in what the loop returns. -/
theorem loop_extra_fuel (buffer : Nat → Nat) (key : List Nat) (outValue : Nat → Int)
    (outValueSize headerSize : Int) (fuel extra pos : Nat) (reads : List Nat)
    (h : headerSize - pos ≤ fuel) :
    readHeaderValueLoop buffer key outValue outValueSize headerSize (fuel + extra) pos reads
      = readHeaderValueLoop buffer key outValue outValueSize headerSize fuel pos reads := by
  induction fuel generalizing pos reads with
  | zero =>
    cases extra with
    | zero => rfl
    | succ e =>
      rw [Nat.zero_add]
      unfold readHeaderValueLoop
      rw [if_neg (by omega), if_neg (by omega)]
  | succ fuel ih =>
    rw [show fuel + 1 + extra = (fuel + extra) + 1 by omega]
    rw [readHeaderValueLoop, readHeaderValueLoop]
    split
    · simp only
      split
      · rfl
      · apply ih
        have hc := (compare_bounds buffer key (headerSize - pos).toNat pos).2.1 (by omega)
        have ha := (advance_bounds buffer
          (headerSize - (compareStringInBufferWithCharArray buffer key
            (headerSize - pos).toNat pos).pos).toNat
          (compareStringInBufferWithCharArray buffer key (headerSize - pos).toNat pos).pos).1
        omega
    · rfl

/-- A scan that does not reject has written a run of digits, from its start index on, and
left every other element of `charBuffer` as it was. -/
theorem digitScan_writes_digits (intBuffer : Nat → Int) (n i : Nat)
    (charBuffer s : Nat → Nat) (h : digitScan intBuffer n i charBuffer = some s) :
    ∃ m, m ≤ n
      ∧ (∀ j, i ≤ j → j < i + m → s j = intToChar (intBuffer j) ∧ isdigit (s j) = true)
      ∧ (∀ j, j < i ∨ i + m ≤ j → s j = charBuffer j) := by
  induction n generalizing i charBuffer with
  | zero =>
    simp only [digitScan, Option.some.injEq] at h
    subst h
    exact ⟨0, le_refl 0, fun j h1 h2 => by omega, fun _ _ => rfl⟩
  | succ n ih =>
    have hhead := digitScan_head intBuffer n i charBuffer s h
    unfold digitScan at h
    simp only [Function.update_same] at h
    split at h
    · simp only [Option.some.injEq] at h
      refine ⟨1, by omega, fun j h1 h2 => ?_, fun j hj => ?_⟩
      · have : j = i := by omega
        subst this
        exact ⟨hhead.1, hhead.2.1⟩
      · subst h
        exact Function.update_noteq (by omega) _ _
    · split at h
      · exact absurd h (by simp)
      · obtain ⟨m, hm, hw, hrest⟩ := ih (i + 1) _ h
        refine ⟨m + 1, by omega, fun j h1 h2 => ?_, fun j hj => ?_⟩
        · by_cases hji : j = i
          · subst hji
            exact ⟨hhead.1, hhead.2.1⟩
          · exact hw j (by omega) (by omega)
        · rw [hrest j (by omega)]
          exact Function.update_noteq (by omega) _ _

/-- The stored value `"10"` of `zeroDigitBuffer` as `readHeaderValue` returns it. -/
theorem readHeaderValue_ten (intBuffer : Nat → Int) :
    ∃ r, readHeaderValue ⟨zeroDigitBuffer, .VERSION_2⟩ [100] intBuffer ((11 : Nat) : Int)
        = some r
      ∧ r.found = true ∧ r.outValue 0 = 49 ∧ r.outValue 1 = 48 := by
  obtain ⟨r, hr, hm⟩ := readHeaderValue_table zeroDigitBuffer
    [([97], [48]), ([98], [48, 97]), ([99], [49, 48, 120]), ([100], [49, 48])] [100]
    intBuffer ((11 : Nat) : Int) (by decide) (by decide) (by decide) (by decide) (by decide)
  have hfind : ([([97], [48]), ([98], [48, 97]), ([99], [49, 48, 120]), ([100], [49, 48])]
      : List (List Nat × List Nat)).find? (fun p => decide (p.1 = [100]))
        = some ([100], [49, 48]) := by decide
  rw [hfind] at hm
  obtain ⟨h1, h2⟩ := hm
  refine ⟨r, hr, h1, ?_, ?_⟩
  · rw [h2]; simp
  · rw [h2]; simp

/-- C1: for a V2 buffer whose option table is the pairs of `table` laid out back to back in
`[12, headerSize)`, every key and every positive capacity, `readHeaderValue` returns: it
reports `found = true` with `outValue` holding the value (cut at the capacity) of the first
pair whose key equals the queried key exactly, and `found = false`, `outValue` untouched,
when no pair has that key.  The result holds whether or not a value string equals the
key. -/
theorem readHeaderValue_finds_first_matching_key (buffer : Nat → Nat)
    (table : List (List Nat × List Nat)) (key : List Nat) (outValue : Nat → Int)
    (outValueSize : Int)
    (hcap : 0 < outValueSize) (hkey : isString key)
    (htable : ∀ p ∈ table, isString p.1 ∧ isString p.2)
    (hlayout : holdsAt buffer 12 (encodeTable table) = true)
    (hsize : (getHeaderSize ⟨buffer, .VERSION_2⟩).val = 12 + (encodeTable table).length) :
    ∃ r, readHeaderValue ⟨buffer, .VERSION_2⟩ key outValue outValueSize = some r
      ∧ match table.find? (fun p => decide (p.1 = key)) with
        | some p => r.found = true
            ∧ r.outValue = fun i => if i < min outValueSize.toNat p.2.length
                then ((p.2.getD i 0 : Nat) : Int) else outValue i
        | none => r.found = false ∧ r.outValue = outValue :=
  readHeaderValue_table buffer table key outValue outValueSize hcap hkey htable hlayout hsize

/-- C1, witness: on the table `("abc","123")`, `("xyz","9")` the key `"xyz"` is found with
value `"9"` and the key `"missing"` is not found. -/
theorem readHeaderValue_finds_first_matching_key_witness :
    (∃ r, readHeaderValue ⟨sampleBuffer, .VERSION_2⟩ [120, 121, 122] (fun _ => 0) 4 = some r
      ∧ r.found = true ∧ r.outValue 0 = 57 ∧ r.outValue 1 = 0)
    ∧ (∃ r, readHeaderValue ⟨sampleBuffer, .VERSION_2⟩ [109, 105, 115, 115, 105, 110, 103]
        (fun _ => 0) 4 = some r ∧ r.found = false) := by
  constructor
  · obtain ⟨r, hr, hm⟩ := readHeaderValue_finds_first_matching_key sampleBuffer sampleTable
      [120, 121, 122] (fun _ => 0) 4 (by decide) (by decide) (by decide) (by decide)
      (by decide)
    refine ⟨r, hr, ?_⟩
    have hfind : sampleTable.find? (fun p => decide (p.1 = [120, 121, 122]))
        = some ([120, 121, 122], [57]) := by decide
    rw [hfind] at hm
    obtain ⟨h1, h2⟩ := hm
    refine ⟨h1, ?_, ?_⟩
    · rw [h2]; decide
    · rw [h2]; decide
  · obtain ⟨r, hr, hm⟩ := readHeaderValue_finds_first_matching_key sampleBuffer sampleTable
      [109, 105, 115, 115, 105, 110, 103] (fun _ => 0) 4 (by decide) (by decide) (by decide)
      (by decide) (by decide)
    refine ⟨r, hr, ?_⟩
    have hfind : sampleTable.find? (fun p => decide (p.1 = [109, 105, 115, 115, 105, 110, 103]))
        = none := by decide
    rw [hfind] at hm
    exact hm.1

/-- C2, the code on the stored value `"42"`: for every fixed capacity of at least 3 and
whatever the two uninitialised local arrays hold, the result of `readHeaderValueInt` is not
42 (it is `S_INT_MIN`, a number of three digits or more, or undefined); when the `int`
array holds zeros it is `S_INT_MIN`, the scan meeting the element behind `"42"`, which is
neither `'0'` nor a digit. -/
theorem readHeaderValueInt_fortyTwo_is_not_parsed :
    (∀ (n : Nat) (intBuffer : Nat → Int) (charBuffer : Nat → Nat),
      readHeaderValueInt ⟨fortyTwoBuffer, .VERSION_2⟩ [107] (n + 3) intBuffer charBuffer
        ≠ some 42)
    ∧ (∀ (n : Nat) (charBuffer : Nat → Nat),
      readHeaderValueInt ⟨fortyTwoBuffer, .VERSION_2⟩ [107] (n + 3) (fun _ => 0) charBuffer
        = some S_INT_MIN) := by
  have key : ∀ (bufferSize : Nat) (intBuffer : Nat → Int), 0 < bufferSize →
      ∃ r, readHeaderValue ⟨fortyTwoBuffer, .VERSION_2⟩ [107] intBuffer (bufferSize : Int)
          = some r ∧ r.found = true
        ∧ r.outValue = fun i => if i < min bufferSize 2
            then ((([52, 50] : List Nat).getD i 0 : Nat) : Int) else intBuffer i := by
    intro bufferSize intBuffer hpos
    obtain ⟨r, hr, hm⟩ := readHeaderValue_table fortyTwoBuffer [([107], [52, 50])] [107]
      intBuffer (bufferSize : Int) (by omega) (by decide) (by decide) (by decide) (by decide)
    refine ⟨r, hr, ?_⟩
    have hfind : ([([107], [52, 50])] : List (List Nat × List Nat)).find?
        (fun p => decide (p.1 = [107])) = some ([107], [52, 50]) := by decide
    rw [hfind] at hm
    simpa using hm
  constructor
  · intro n intBuffer charBuffer
    obtain ⟨r, hr, hf, ho⟩ := key (n + 3) intBuffer (by omega)
    unfold readHeaderValueInt
    rw [hr]
    simp only [hf, Bool.true_eq_false, if_false]
    cases hs : digitScan r.outValue (n + 3) 0 charBuffer with
    | none => simp [S_INT_MIN]
    | some s =>
      simp only
      obtain ⟨a0, _, a1⟩ := digitScan_head _ _ _ _ _ hs
      have o0 : r.outValue 0 = 52 := by rw [ho]; simp
      have c0 : intToChar (r.outValue 0) = 52 := by rw [o0]; decide
      rw [c0] at a0 a1
      obtain ⟨b0, _, b1⟩ := digitScan_head _ _ _ _ _ (a1 (by decide))
      have o1 : r.outValue 1 = 50 := by rw [ho]; simp
      have c1 : intToChar (r.outValue (0 + 1)) = 50 := by rw [Nat.zero_add, o1]; decide
      rw [c1] at b0 b1
      obtain ⟨_, e1, _⟩ := digitScan_head _ _ _ _ _ (b1 (by decide))
      simp only [arrayElems, a0, b0]
      exact atoi_three_digits _ _ e1
  · intro n charBuffer
    obtain ⟨r, hr, hf, ho⟩ := key (n + 3) (fun _ => 0) (by omega)
    unfold readHeaderValueInt
    rw [hr]
    simp only [hf, Bool.true_eq_false, if_false]
    have o0 : r.outValue 0 = 52 := by rw [ho]; simp
    have o1 : r.outValue 1 = 50 := by rw [ho]; simp
    have o2 : r.outValue 2 = 0 := by rw [ho]; simp
    rw [digitScan_rejects r.outValue (n + 3) 0 2 charBuffer (by omega) (by omega)
      (by rw [o2]; decide)
      (fun k _ hk => by
        have : k = 0 ∨ k = 1 := by omega
        rcases this with rfl | rfl
        · rw [o0]; decide
        · rw [o1]; decide)]

/-- C3, as the code has it: for every V2 buffer `getFlags` is the 2-byte unsigned integer
at byte offset 6 (behind the 4-byte magic number and the 2-byte version), and it reads
bytes 6 and 7 only. -/
theorem getFlags_reads_offset_six (buffer : Nat → Nat) :
    getFlags ⟨buffer, .VERSION_2⟩ = ⟨((readUint16 buffer 6).val : Int), [6, 7]⟩ := rfl

/-- C3 as stated fails: on `flagsBuffer` the 2-byte integer at offset 4 is 1 while
`getFlags` is 2. -/
theorem getFlags_offset_four_counterexample :
    (readUint16 flagsBuffer 4).val = 1 ∧ (getFlags ⟨flagsBuffer, .VERSION_2⟩).val = 2
      ∧ (getFlags ⟨flagsBuffer, .VERSION_2⟩).val ≠ ((readUint16 flagsBuffer 4).val : Int) := by
  decide

/-- C4, as the code has it: for every V2 buffer `getHeaderSize` reads bytes 8 to 11 and
returns the 4-byte unsigned integer stored there as a signed 32-bit `int`: the field itself
when it is below `2^31`, the field minus `2^32` otherwise. -/
theorem getHeaderSize_is_signed_field (buffer : Nat → Nat) :
    (getHeaderSize ⟨buffer, .VERSION_2⟩).reads = [8, 9, 10, 11]
      ∧ (getHeaderSize ⟨buffer, .VERSION_2⟩).val
        = if (readUint32 buffer 8).val < 2147483648 then ((readUint32 buffer 8).val : Int)
          else ((readUint32 buffer 8).val : Int) - 4294967296 := by
  refine ⟨rfl, ?_⟩
  have h := readUint32_lt buffer 8
  show uint32ToInt (readUint32 buffer 8).val = _
  unfold uint32ToInt
  rw [Nat.mod_eq_of_lt h]

/-- C4 as stated fails: on `hugeHeaderBuffer` the field at offset 8 is `2^32 - 1` and
`getHeaderSize` is `-1`. -/
theorem getHeaderSize_unsigned_counterexample :
    (readUint32 hugeHeaderBuffer 8).val = 4294967295
      ∧ (getHeaderSize ⟨hugeHeaderBuffer, .VERSION_2⟩).val = -1
      ∧ (getHeaderSize ⟨hugeHeaderBuffer, .VERSION_2⟩).val
          ≠ ((readUint32 hugeHeaderBuffer 8).val : Int) := by
  decide

/-- C5, the code at the failing input: the header of `keyLastBuffer` is 16 bytes and its
table ends with the key `"abc"`; looking `"abc"` up reports it found with the value `"x"`,
having read the bytes at offsets 16 and 17, which lie behind `headerSize`. -/
theorem readHeaderValue_reads_behind_headerSize :
    (getHeaderSize ⟨keyLastBuffer, .VERSION_2⟩).val = 16
      ∧ (readHeaderValue ⟨keyLastBuffer, .VERSION_2⟩ [97, 98, 99] (fun _ => 0) 4).map
          (fun r => (r.found, r.outValue 0, r.outValue 1, r.reads))
        = some (true, 120, 0, [8, 9, 10, 11, 12, 13, 14, 15, 16, 17]) := by
  decide

/-- C7: with the tag V1, for every buffer, `getHeaderSize` is 5 and `getFlags` is the empty
bitset 0, and neither reads a byte of the buffer. -/
theorem version1_header_is_constant (buffer : Nat → Nat) :
    getHeaderSize ⟨buffer, .VERSION_1⟩ = ⟨5, []⟩
      ∧ getFlags ⟨buffer, .VERSION_1⟩ = ⟨0, []⟩ :=
  ⟨rfl, rfl⟩

/-- C8: with a tag that is neither V1 nor V2, for every buffer and key, `getHeaderSize` is
`S_INT_MAX = 2^31 - 1`, `getFlags` is 0, `readHeaderValue` reports `found = false` and
`readHeaderValueInt` returns `S_INT_MIN = -2^31`. -/
theorem unknown_format_sentinels (buffer : Nat → Nat) (key : List Nat)
    (outValue : Nat → Int) (outValueSize : Int) (bufferSize : Nat) (intBuffer : Nat → Int)
    (charBuffer : Nat → Nat) :
    (getHeaderSize ⟨buffer, .UNKNOWN_VERSION⟩).val = S_INT_MAX
      ∧ S_INT_MAX = 2 ^ 31 - 1
      ∧ (getFlags ⟨buffer, .UNKNOWN_VERSION⟩).val = 0
      ∧ readHeaderValue ⟨buffer, .UNKNOWN_VERSION⟩ key outValue outValueSize
          = some ⟨false, outValue, []⟩
      ∧ readHeaderValueInt ⟨buffer, .UNKNOWN_VERSION⟩ key bufferSize intBuffer charBuffer
          = some S_INT_MIN
      ∧ S_INT_MIN = -2 ^ 31 := by
  refine ⟨rfl, by decide, rfl, ?_, ?_, by decide⟩
  · simp [readHeaderValue, hasHeaderAttributes]
  · simp [readHeaderValueInt, readHeaderValue, hasHeaderAttributes]

/-- C9: for every buffer, tag and key, when the capacity is not positive or the tag is not
V2, `readHeaderValue` reports `found = false`, leaves `outValue` as it was and reads no
byte of the buffer. -/
theorem readHeaderValue_guard (info : BinaryDictionaryInfo) (key : List Nat)
    (outValue : Nat → Int) (outValueSize : Int)
    (h : outValueSize ≤ 0 ∨ info.format ≠ .VERSION_2) :
    readHeaderValue info key outValue outValueSize = some ⟨false, outValue, []⟩ := by
  unfold readHeaderValue
  rw [if_pos]
  rcases h with h | h
  · exact Or.inl h
  · right
    cases hf : info.format with
    | VERSION_1 => rfl
    | VERSION_2 => exact absurd hf h
    | UNKNOWN_VERSION => rfl

/-- C9, witness: capacity 0 on the V2 sample dictionary, and the same dictionary tagged
V1 with capacity 4. -/
theorem readHeaderValue_guard_witness :
    (((0 : Int) ≤ 0 ∨ FORMAT_VERSION.VERSION_2 ≠ FORMAT_VERSION.VERSION_2)
      ∧ readHeaderValue ⟨sampleBuffer, .VERSION_2⟩ [120, 121, 122] (fun _ => 0) 0
          = some ⟨false, fun _ => 0, []⟩)
    ∧ (((4 : Int) ≤ 0 ∨ FORMAT_VERSION.VERSION_1 ≠ FORMAT_VERSION.VERSION_2)
      ∧ readHeaderValue ⟨sampleBuffer, .VERSION_1⟩ [120, 121, 122] (fun _ => 0) 4
          = some ⟨false, fun _ => 0, []⟩) :=
  ⟨⟨by decide, readHeaderValue_guard ⟨sampleBuffer, .VERSION_2⟩ _ _ 0 (by decide)⟩,
    ⟨by decide, readHeaderValue_guard ⟨sampleBuffer, .VERSION_1⟩ _ _ 4 (by decide)⟩⟩

/-- C10: when `readHeaderValue` finds a value and the array it filled holds, at an index
below the fixed capacity and before the first `'0'` character, an element that is not an
ASCII decimal digit, `readHeaderValueInt` returns `S_INT_MIN`. -/
theorem readHeaderValueInt_rejects_non_digit (info : BinaryDictionaryInfo) (key : List Nat)
    (bufferSize : Nat) (intBuffer : Nat → Int) (charBuffer : Nat → Nat) (r : HeaderValue)
    (j : Nat)
    (hr : readHeaderValue info key intBuffer (bufferSize : Int) = some r)
    (hfound : r.found = true) (hj : j < bufferSize)
    (hnon : isdigit (intToChar (r.outValue j)) = false)
    (hzero : ∀ i, i < j → intToChar (r.outValue i) ≠ 48) :
    readHeaderValueInt info key bufferSize intBuffer charBuffer = some S_INT_MIN := by
  unfold readHeaderValueInt
  rw [hr]
  simp only [hfound, Bool.true_eq_false, if_false]
  rw [digitScan_rejects r.outValue bufferSize 0 j charBuffer (Nat.zero_le j) (by omega) hnon
    (fun k _ hk => hzero k hk)]

/-- C10, witness: the stored value `"4a"` has the non-digit `'a'` at index 1, and the
stored value `"-5"` the sign `'-'` at index 0. -/
theorem readHeaderValueInt_rejects_non_digit_witness :
    readHeaderValueInt ⟨nonDigitBuffer, .VERSION_2⟩ [107] 11 (fun _ => 0) (fun _ => 0)
        = some S_INT_MIN
      ∧ readHeaderValueInt ⟨nonDigitBuffer, .VERSION_2⟩ [109] 11 (fun _ => 0) (fun _ => 0)
        = some S_INT_MIN :=
  ⟨readHeaderValueInt_rejects_non_digit ⟨nonDigitBuffer, .VERSION_2⟩ [107] 11 (fun _ => 0)
      (fun _ => 0)
      ⟨true, Function.update (Function.update (fun _ => 0) 0 52) 1 97,
        [8, 9, 10, 11, 12, 13, 14, 15, 16]⟩
      1 rfl rfl (by decide) (by decide) (by decide),
    readHeaderValueInt_rejects_non_digit ⟨nonDigitBuffer, .VERSION_2⟩ [109] 11 (fun _ => 0)
      (fun _ => 0)
      ⟨true, Function.update (Function.update (fun _ => 0) 0 45) 1 53,
        [8, 9, 10, 11, 12, 13, 14, 15, 16, 17, 18, 19, 20, 21]⟩
      0 rfl rfl (by decide) (by decide) (by decide)⟩

/-- C11: for every buffer, tag and key, `readHeaderValue` called with the fixed capacity
returns, and when it reports `found = false`, `readHeaderValueInt` returns `S_INT_MIN`. -/
theorem readHeaderValueInt_absent_when_not_found (info : BinaryDictionaryInfo)
    (key : List Nat) (bufferSize : Nat) (intBuffer : Nat → Int) (charBuffer : Nat → Nat) :
    ∃ r, readHeaderValue info key intBuffer (bufferSize : Int) = some r
      ∧ (r.found = false →
          readHeaderValueInt info key bufferSize intBuffer charBuffer = some S_INT_MIN) := by
  obtain ⟨r, hr⟩ := readHeaderValue_returns info key intBuffer (bufferSize : Int)
  refine ⟨r, hr, fun hf => ?_⟩
  unfold readHeaderValueInt
  rw [hr]
  simp [hf]

/-- C11, witness: the key `"missing"` is not in the sample dictionary. -/
theorem readHeaderValueInt_absent_when_not_found_witness :
    (readHeaderValue ⟨sampleBuffer, .VERSION_2⟩ [109, 105, 115, 115, 105, 110, 103]
        (fun _ => 0) ((11 : Nat) : Int)).map (fun r => r.found) = some false
      ∧ readHeaderValueInt ⟨sampleBuffer, .VERSION_2⟩ [109, 105, 115, 115, 105, 110, 103] 11
          (fun _ => 0) (fun _ => 0) = some S_INT_MIN := by
  have hf : (readHeaderValue ⟨sampleBuffer, .VERSION_2⟩ [109, 105, 115, 115, 105, 110, 103]
      (fun _ => 0) ((11 : Nat) : Int)).map (fun r => r.found) = some false := by decide
  refine ⟨hf, ?_⟩
  obtain ⟨r, hr, h⟩ := readHeaderValueInt_absent_when_not_found ⟨sampleBuffer, .VERSION_2⟩
    [109, 105, 115, 115, 105, 110, 103] 11 (fun _ => 0) (fun _ => 0)
  rw [hr] at hf
  simp only [Option.map_some', Option.some.injEq] at hf
  exact h hf

/-- C12: for every buffer, tag, key and capacity `readHeaderValue` returns.  Its loop,
started at any cursor `pos`, returns within `headerSize - pos` iterations (`headerSize - 12`
from the start of the table), and allowing more iterations changes nothing; while the
cursor is below `headerSize` the comparison moves it strictly forward and the skip never
moves it back. -/
theorem readHeaderValue_loop_terminates (info : BinaryDictionaryInfo) (key : List Nat)
    (outValue : Nat → Int) (outValueSize headerSize : Int) (pos : Nat) (reads : List Nat) :
    (∃ r, readHeaderValue info key outValue outValueSize = some r)
      ∧ (∃ r, readHeaderValueLoop info.dictBuf key outValue outValueSize headerSize
          (headerSize - pos).toNat pos reads = some r)
      ∧ (∀ extra, readHeaderValueLoop info.dictBuf key outValue outValueSize headerSize
          ((headerSize - pos).toNat + extra) pos reads
          = readHeaderValueLoop info.dictBuf key outValue outValueSize headerSize
              (headerSize - pos).toNat pos reads)
      ∧ ((pos : Int) < headerSize →
          pos < (compareStringInBufferWithCharArray info.dictBuf key
              (headerSize - pos).toNat pos).pos
          ∧ (compareStringInBufferWithCharArray info.dictBuf key
              (headerSize - pos).toNat pos).pos
            ≤ (advancePositionToBehindString info.dictBuf
                (headerSize - (compareStringInBufferWithCharArray info.dictBuf key
                  (headerSize - pos).toNat pos).pos).toNat
                (compareStringInBufferWithCharArray info.dictBuf key
                  (headerSize - pos).toNat pos).pos).pos) := by
  refine ⟨readHeaderValue_returns info key outValue outValueSize,
    loop_returns _ _ _ _ _ _ _ _ (by omega),
    fun extra => loop_extra_fuel _ _ _ _ _ _ _ _ _ (by omega), fun hlt => ?_⟩
  exact ⟨(compare_bounds _ _ _ _).2.1 (by omega), (advance_bounds _ _ _).1⟩

/-- C12, witness: at the start of the sample table, cursor 12 below the header size 26,
the comparison with `"xyz"` leaves the cursor at 16 and the skip at 20. -/
theorem readHeaderValue_loop_terminates_witness :
    (12 : Int) < 26
      ∧ (compareStringInBufferWithCharArray sampleBuffer [120, 121, 122] 14 12).pos = 16
      ∧ (advancePositionToBehindString sampleBuffer 10 16).pos = 20
      ∧ 12 < (compareStringInBufferWithCharArray sampleBuffer [120, 121, 122]
          ((26 : Int) - (12 : Nat)).toNat 12).pos :=
  ⟨by decide, by decide, by decide,
    ((readHeaderValue_loop_terminates ⟨sampleBuffer, .VERSION_2⟩ [120, 121, 122]
      (fun _ => 0) 4 26 12 []).2.2.2 (by decide)).1⟩

/-- C13: when the array filled by `readHeaderValue` holds, below the fixed capacity, digits
other than `'0'` followed by a `'0'` character, the scan of `readHeaderValueInt` stops at
that `'0'`: it does not reject, it has copied the elements up to the `'0'` only, its outcome
is the same for every array that agrees up to the `'0'`, and `readHeaderValueInt` returns
what `atoi` makes of the `char` array, which is not `S_INT_MIN`. -/
theorem readHeaderValueInt_stops_at_zero (info : BinaryDictionaryInfo) (key : List Nat)
    (bufferSize : Nat) (intBuffer : Nat → Int) (charBuffer : Nat → Nat) (r : HeaderValue)
    (k : Nat)
    (hr : readHeaderValue info key intBuffer (bufferSize : Int) = some r)
    (hfound : r.found = true) (hk : k < bufferSize)
    (hd : ∀ i, i < k →
      isdigit (intToChar (r.outValue i)) = true ∧ intToChar (r.outValue i) ≠ 48)
    (hz : intToChar (r.outValue k) = 48) :
    digitScan r.outValue bufferSize 0 charBuffer
        = some (fun i => if i ≤ k then intToChar (r.outValue i) else charBuffer i)
      ∧ (∀ other : Nat → Int, (∀ i, i ≤ k → other i = r.outValue i) →
          digitScan other bufferSize 0 charBuffer
            = digitScan r.outValue bufferSize 0 charBuffer)
      ∧ readHeaderValueInt info key bufferSize intBuffer charBuffer
          = atoi (arrayElems
              (fun i => if i ≤ k then intToChar (r.outValue i) else charBuffer i)
              0 bufferSize)
      ∧ readHeaderValueInt info key bufferSize intBuffer charBuffer ≠ some S_INT_MIN := by
  have hscan : ∀ a : Nat → Int, (∀ i, i ≤ k → a i = r.outValue i) →
      digitScan a bufferSize 0 charBuffer
        = some (fun i => if i ≤ k then intToChar (r.outValue i) else charBuffer i) := by
    intro a ha
    rw [digitScan_stops a bufferSize 0 k charBuffer (Nat.zero_le k) (by omega)
      (fun j _ hj => by rw [ha j (by omega)]; exact hd j hj)
      (by rw [ha k (le_refl k)]; exact hz)]
    congr 1
    funext x
    by_cases hx : x ≤ k
    · rw [if_pos ⟨Nat.zero_le x, hx⟩, if_pos hx, ha x hx]
    · rw [if_neg (fun h => hx h.2), if_neg hx]
  have hself := hscan r.outValue (fun _ _ => rfl)
  have hres : readHeaderValueInt info key bufferSize intBuffer charBuffer
      = atoi (arrayElems
          (fun i => if i ≤ k then intToChar (r.outValue i) else charBuffer i)
          0 bufferSize) := by
    unfold readHeaderValueInt
    rw [hr]
    simp only [hfound, Bool.true_eq_false, if_false]
    rw [hself]
  refine ⟨hself, fun other ho => by rw [hscan other ho, hself], hres, ?_⟩
  rw [hres]
  obtain ⟨m, rfl⟩ : ∃ m, bufferSize = m + 1 := ⟨bufferSize - 1, by omega⟩
  simp only [arrayElems]
  apply atoi_digit_head
  rw [if_pos (Nat.zero_le k)]
  rcases Nat.eq_zero_or_pos k with h0 | hpos
  · subst h0
    rw [hz]
    decide
  · exact (hd 0 hpos).1

/-- C13, witness: the stored values `"0"`, `"0a"` and `"10x"` are not rejected. -/
theorem readHeaderValueInt_stops_at_zero_witness :
    readHeaderValueInt ⟨zeroDigitBuffer, .VERSION_2⟩ [97] 11 (fun _ => 0) (fun _ => 0)
        ≠ some S_INT_MIN
      ∧ readHeaderValueInt ⟨zeroDigitBuffer, .VERSION_2⟩ [98] 11 (fun _ => 0) (fun _ => 0)
        ≠ some S_INT_MIN
      ∧ readHeaderValueInt ⟨zeroDigitBuffer, .VERSION_2⟩ [99] 11 (fun _ => 0) (fun _ => 0)
        ≠ some S_INT_MIN :=
  ⟨(readHeaderValueInt_stops_at_zero ⟨zeroDigitBuffer, .VERSION_2⟩ [97] 11 (fun _ => 0)
      (fun _ => 0)
      ⟨true, Function.update (fun _ => 0) 0 48, [8, 9, 10, 11, 12, 13, 14, 15]⟩
      0 rfl rfl (by decide) (by decide) (by decide)).2.2.2,
    (readHeaderValueInt_stops_at_zero ⟨zeroDigitBuffer, .VERSION_2⟩ [98] 11 (fun _ => 0)
      (fun _ => 0)
      ⟨true, Function.update (Function.update (fun _ => 0) 0 48) 1 97,
        [8, 9, 10, 11, 12, 13, 14, 15, 16, 17, 18, 19, 20]⟩
      0 rfl rfl (by decide) (by decide) (by decide)).2.2.2,
    (readHeaderValueInt_stops_at_zero ⟨zeroDigitBuffer, .VERSION_2⟩ [99] 11 (fun _ => 0)
      (fun _ => 0)
      ⟨true, Function.update (Function.update (Function.update (fun _ => 0) 0 49) 1 48) 2 120,
        [8, 9, 10, 11, 12, 13, 14, 15, 16, 17, 18, 19, 20, 21, 22, 23, 24, 25, 26]⟩
      1 rfl rfl (by decide) (by decide) (by decide)).2.2.2⟩

/-- C14: for every V2 buffer `getFlags` is the 2-byte unsigned integer formed from bytes 6
and 7; two V2 buffers that agree on bytes 6 and 7 have equal flags, and two that agree on
bytes 8 to 11 have equal `getHeaderSize`. -/
theorem flags_and_size_depend_on_their_fields (buffer other : Nat → Nat) :
    (getFlags ⟨buffer, .VERSION_2⟩).val
        = ((readUint8 buffer 6 * 256 + readUint8 buffer 7 : Nat) : Int)
      ∧ (readUint8 buffer 6 = readUint8 other 6 → readUint8 buffer 7 = readUint8 other 7 →
          getFlags ⟨buffer, .VERSION_2⟩ = getFlags ⟨other, .VERSION_2⟩)
      ∧ (readUint8 buffer 8 = readUint8 other 8 → readUint8 buffer 9 = readUint8 other 9 →
          readUint8 buffer 10 = readUint8 other 10 →
          readUint8 buffer 11 = readUint8 other 11 →
          getHeaderSize ⟨buffer, .VERSION_2⟩ = getHeaderSize ⟨other, .VERSION_2⟩) := by
  refine ⟨rfl, fun h6 h7 => ?_, fun h8 h9 h10 h11 => ?_⟩
  · show (⟨((readUint16 buffer 6).val : Int), [6, 7]⟩ : Traced Int)
      = ⟨((readUint16 other 6).val : Int), [6, 7]⟩
    simp only [readUint16, h6, h7]
  · show (⟨uint32ToInt (readUint32 buffer 8).val, [8, 9, 10, 11]⟩ : Traced Int)
      = ⟨uint32ToInt (readUint32 other 8).val, [8, 9, 10, 11]⟩
    simp only [readUint32, h8, h9, h10, h11]

/-- C14, witness: `flagsBuffer` and `otherFlagsBuffer` agree on bytes 6 and 7 only, and
have the flags 2; `sampleBuffer` and `otherSizeBuffer` agree on bytes 8 to 11 and have the
header size 26. -/
theorem flags_and_size_depend_on_their_fields_witness :
    (getFlags ⟨flagsBuffer, .VERSION_2⟩ = getFlags ⟨otherFlagsBuffer, .VERSION_2⟩
      ∧ (getFlags ⟨flagsBuffer, .VERSION_2⟩).val = 2)
    ∧ (getHeaderSize ⟨sampleBuffer, .VERSION_2⟩ = getHeaderSize ⟨otherSizeBuffer, .VERSION_2⟩
      ∧ (getHeaderSize ⟨sampleBuffer, .VERSION_2⟩).val = 26) :=
  ⟨⟨(flags_and_size_depend_on_their_fields flagsBuffer otherFlagsBuffer).2.1
      (by decide) (by decide), by decide⟩,
    ⟨(flags_and_size_depend_on_their_fields sampleBuffer otherSizeBuffer).2.2
      (by decide) (by decide) (by decide) (by decide), by decide⟩⟩

/-- C15: on a V2 buffer whose header holds a well-formed table, a key that equals a value
string of the table and no pair's key is reported `found = false`, `outValue` untouched:
the strings in value position are skipped, not compared. -/
theorem readHeaderValue_never_matches_values (buffer : Nat → Nat)
    (table : List (List Nat × List Nat)) (key : List Nat) (outValue : Nat → Int)
    (outValueSize : Int)
    (hcap : 0 < outValueSize) (hkey : isString key)
    (htable : ∀ p ∈ table, isString p.1 ∧ isString p.2)
    (hlayout : holdsAt buffer 12 (encodeTable table) = true)
    (hsize : (getHeaderSize ⟨buffer, .VERSION_2⟩).val = 12 + (encodeTable table).length)
    (_hvalue : ∃ p ∈ table, p.2 = key) (hnokey : ∀ p ∈ table, p.1 ≠ key) :
    ∃ r, readHeaderValue ⟨buffer, .VERSION_2⟩ key outValue outValueSize = some r
      ∧ r.found = false ∧ r.outValue = outValue := by
  obtain ⟨r, hr, hm⟩ := readHeaderValue_table buffer table key outValue outValueSize hcap
    hkey htable hlayout hsize
  have hfind : table.find? (fun p => decide (p.1 = key)) = none := by
    rw [List.find?_eq_none]
    intro p hp
    simpa using hnokey p hp
  rw [hfind] at hm
  exact ⟨r, hr, hm⟩

/-- C15, witness: `"123"` is the value of `"abc"` in the sample table and the key of no
pair. -/
theorem readHeaderValue_never_matches_values_witness :
    ∃ r, readHeaderValue ⟨sampleBuffer, .VERSION_2⟩ [49, 50, 51] (fun _ => 0) 4 = some r
      ∧ r.found = false ∧ r.outValue = fun _ => 0 :=
  readHeaderValue_never_matches_values sampleBuffer sampleTable [49, 50, 51] (fun _ => 0) 4
    (by decide) (by decide) (by decide) (by decide) (by decide)
    ⟨([97, 98, 99], [49, 50, 51]), by decide, rfl⟩ (by decide)

/-- C16: when the array filled by `readHeaderValue` holds, below the fixed capacity, digits
`'1'` to `'9'` only followed by a 0 terminator, `readHeaderValueInt` returns `S_INT_MIN`:
the scan reaches the terminator, which is neither `'0'` nor a digit. -/
theorem readHeaderValueInt_rejects_at_terminator (info : BinaryDictionaryInfo)
    (key : List Nat) (bufferSize : Nat) (intBuffer : Nat → Int) (charBuffer : Nat → Nat)
    (r : HeaderValue) (k : Nat)
    (hr : readHeaderValue info key intBuffer (bufferSize : Int) = some r)
    (hfound : r.found = true) (hk : k < bufferSize)
    (hd : ∀ i, i < k → 49 ≤ r.outValue i ∧ r.outValue i ≤ 57)
    (hterm : r.outValue k = 0) :
    readHeaderValueInt info key bufferSize intBuffer charBuffer = some S_INT_MIN := by
  unfold readHeaderValueInt
  rw [hr]
  simp only [hfound, Bool.true_eq_false, if_false]
  rw [digitScan_rejects r.outValue bufferSize 0 k charBuffer (Nat.zero_le k) (by omega)
    (by rw [hterm]; decide)
    (fun i _ hi => (intToChar_digit _ (hd i hi)).2)]

/-- C16, witness: the stored value `"42"` read into an array of zeros is `'4'`, `'2'`
followed by 0. -/
theorem readHeaderValueInt_rejects_at_terminator_witness :
    readHeaderValueInt ⟨fortyTwoBuffer, .VERSION_2⟩ [107] 11 (fun _ => 0) (fun _ => 0)
      = some S_INT_MIN :=
  readHeaderValueInt_rejects_at_terminator ⟨fortyTwoBuffer, .VERSION_2⟩ [107] 11
    (fun _ => 0) (fun _ => 0)
    ⟨true, Function.update (Function.update (fun _ => 0) 0 52) 1 50,
      [8, 9, 10, 11, 12, 13, 14, 15, 16]⟩
    2 rfl rfl (by decide) (by decide) (by decide)

/-- C17, the code at the failing inputs.  Whenever the scan does not reject, the elements
it wrote into `charBuffer` are digits, none of them a 0 terminator, and the others are as
they were.  On the stored value `"10"` the loop breaks after writing `'1'`, `'0'`, and
`atoi` is handed these followed by elements 2 to 10 of the uninitialised array: the result
is 10 when they are zeros and 105 when element 2 happens to be `'5'`.  On a stored value
of eleven digits the loop writes all eleven elements and `atoi` runs off the array. -/
theorem atoi_gets_unterminated_array :
    (∀ (intBuffer : Nat → Int) (n : Nat) (charBuffer s : Nat → Nat),
      digitScan intBuffer n 0 charBuffer = some s →
        ∃ m, m ≤ n ∧ (∀ j, j < m → isdigit (s j) = true ∧ s j ≠ 0)
          ∧ (∀ j, m ≤ j → s j = charBuffer j))
    ∧ (∀ (intBuffer : Nat → Int) (charBuffer : Nat → Nat),
      readHeaderValueInt ⟨zeroDigitBuffer, .VERSION_2⟩ [100] 11 intBuffer charBuffer
        = atoi (49 :: 48 :: arrayElems charBuffer 2 9))
    ∧ readHeaderValueInt ⟨zeroDigitBuffer, .VERSION_2⟩ [100] 11 (fun _ => 0) (fun _ => 0)
        = some 10
    ∧ readHeaderValueInt ⟨zeroDigitBuffer, .VERSION_2⟩ [100] 11 (fun _ => 0)
        (fun i => if i = 2 then 53 else 0) = some 105
    ∧ readHeaderValueInt ⟨longDigitsBuffer, .VERSION_2⟩ [101] 11 (fun _ => 0) (fun _ => 0)
        = none := by
  refine ⟨?_, ?_, by decide, by decide, by decide⟩
  · intro intBuffer n charBuffer s h
    obtain ⟨m, hm, hw, hrest⟩ := digitScan_writes_digits intBuffer n 0 charBuffer s h
    refine ⟨m, hm, fun j hj => ?_, fun j hj => hrest j (Or.inr (by omega))⟩
    have hdig := (hw j (Nat.zero_le j) (by omega)).2
    refine ⟨hdig, fun h0 => ?_⟩
    rw [h0] at hdig
    exact absurd hdig (by decide)
  · intro intBuffer charBuffer
    obtain ⟨r, hr, hf, h0, h1⟩ := readHeaderValue_ten intBuffer
    unfold readHeaderValueInt
    rw [hr]
    simp only [hf, Bool.true_eq_false, if_false]
    have c0 : intToChar (r.outValue 0) = 49 := by rw [h0]; decide
    have c1 : intToChar (r.outValue 1) = 48 := by rw [h1]; decide
    rw [digitScan_stops r.outValue 11 0 1 charBuffer (by omega) (by omega)
      (fun j _ hj => by
        have : j = 0 := by omega
        subst this
        rw [c0]
        decide)
      c1]
    simp only [arrayElems, Nat.zero_le, true_and, Nat.zero_add, Nat.reduceAdd,
      Nat.reduceLeDiff, if_true, if_false, le_refl, c0, c1]

/-- C18: for every buffer, tag, key and capacity, `readHeaderValue` returns, and a call
that returns `false` leaves every element of the caller's `outValue` as it was. -/
theorem readHeaderValue_false_keeps_outValue (info : BinaryDictionaryInfo) (key : List Nat)
    (outValue : Nat → Int) (outValueSize : Int) :
    ∃ r, readHeaderValue info key outValue outValueSize = some r
      ∧ (r.found = false → ∀ i, r.outValue i = outValue i) := by
  obtain ⟨r, hr⟩ := readHeaderValue_returns info key outValue outValueSize
  refine ⟨r, hr, fun hf i => ?_⟩
  rw [readHeaderValue_notFound_keeps info key outValue outValueSize r hr hf]

/-- C18, witness: looking up `"missing"` in the sample dictionary with an array holding
`7, 8, 9, ...` returns `false` and leaves the array so. -/
theorem readHeaderValue_false_keeps_outValue_witness :
    ∃ r, readHeaderValue ⟨sampleBuffer, .VERSION_2⟩ [109, 105, 115, 115, 105, 110, 103]
        (fun j => (j : Int) + 7) 4 = some r
      ∧ r.found = false ∧ ∀ i, r.outValue i = (i : Int) + 7 := by
  have hf : (readHeaderValue ⟨sampleBuffer, .VERSION_2⟩ [109, 105, 115, 115, 105, 110, 103]
      (fun j => (j : Int) + 7) 4).map (fun r => r.found) = some false := by decide
  obtain ⟨r, hr, h⟩ := readHeaderValue_false_keeps_outValue ⟨sampleBuffer, .VERSION_2⟩
    [109, 105, 115, 115, 105, 110, 103] (fun j => (j : Int) + 7) 4
  rw [hr] at hf
  simp only [Option.map_some', Option.some.injEq] at hf
  exact ⟨r, hr, hf, h hf⟩

end latinime
